import Mathlib

/-!
Verification of the VQ2D tracking metrics module
(`vq2d/metrics/tracking_metrics.py`).

The module has two layers:

* `compute_tracking_metrics` — the aggregator.  It receives a ground-truth
  table (rows `video-id`, `response_track`), a prediction table (rows
  `video-id`, `response_track`, `score`), a list of IoU thresholds and a
  selection mode, and returns the "% recovery" robustness vector, one entry
  per threshold.
* `TrackingMetrics` — the facade.  It converts the raw input lists into the
  tabular shape, runs the aggregator over its fixed threshold grid and stores
  the raw vector together with its mean.

The geometric collaborators `spatio_temporal_iou` and
`spatio_temporal_iou_matches` live outside the module; they are modelled as
an abstract pair of functions (`Collaborators`).  Real-valued quantities are
embedded as rationals.  NumPy specifics that the code relies on are modelled
as follows: `argsort` is a stable ascending sort (NumPy uses insertion sort
for the short arrays involved here) and `[::-1]` is list reversal;
`argmax` returns the first occurrence of the maximum.
-/

attribute [local semireducible] Rat.mul Rat.inv Rat.add

/-- Modelled from the spec: the external collaborator data type
`ResponseTrack` is consumed opaquely; the aggregator only reads `length`
(ground truth) and `score` (predictions).  The `tid` field stands for the
per-frame bounding-box payload that only the collaborator functions inspect. -/
structure ResponseTrack where
  tid : ℕ
  length : ℤ
  score : ℚ
  deriving DecidableEq, Repr

/-- Row of the ground-truth table built by `_import_ground_truth`:
columns `video-id` and `response_track`. -/
structure GtRow where
  videoId : ℕ
  response_track : ResponseTrack
  deriving DecidableEq, Repr

/-- Row of the prediction table built by `_import_prediction`:
columns `video-id`, `response_track` and `score`. -/
structure PredRow where
  videoId : ℕ
  response_track : ResponseTrack
  score : ℚ
  deriving DecidableEq, Repr

/-- Modelled from the spec: the two pure collaborator functions imported from
`vq2d.metrics.utils`.  The source always passes a one-element (first
ground-truth row) candidate collection and takes entry `[0]` of the result,
so each collaborator is modelled as a binary function on tracks:
the whole-track spatio-temporal IoU, and the per-frame matched-IoU values
(the code only uses `list(stiou_matches.values())`). -/
structure Collaborators where
  spatio_temporal_iou : ResponseTrack → ResponseTrack → ℚ
  spatio_temporal_iou_matches : ResponseTrack → ResponseTrack → List ℚ

/-- Selection mode of the aggregator (`mode` argument, asserted to be one of
`"take_max_stiou"`, `"take_max_score"`). -/
inductive Mode where
  | take_max_stiou
  | take_max_score
  deriving DecidableEq, Repr

/-- Stable insertion of a prediction row into a score-ascending list;
a row is placed before the first row of strictly greater-or-equal… more
precisely before the first row whose score is `≥` its own, which keeps rows
with equal scores in their original relative order. -/
def orderedInsertScore (p : PredRow) : List PredRow → List PredRow
  | [] => [p]
  | q :: l => if p.score ≤ q.score then p :: q :: l else q :: orderedInsertScore p l

/-- Stable ascending insertion sort by score; models
`prediction["score"].values.argsort()` (NumPy sorts arrays this short with
insertion sort, which is stable). -/
def insertionSortScore : List PredRow → List PredRow
  | [] => []
  | p :: l => orderedInsertScore p (insertionSortScore l)

/-- Models `prediction.loc[prediction["score"].values.argsort()[::-1]]`:
the prediction rows reordered by the reversed ascending argsort, i.e. by
decreasing score with ties in reversed input order. -/
def sortPredictions (prediction : List PredRow) : List PredRow :=
  (insertionSortScore prediction).reverse

/-- Models `ground_truth.groupby("video-id").get_group(v)`: the ground-truth
rows of video `v` in table order. -/
def gtGroup (ground_truth : List GtRow) (v : ℕ) : List GtRow :=
  ground_truth.filter (fun g => decide (g.videoId = v))

/-- Models `this_gt["response_track"].values[0]`: the first ground-truth
track recorded for video `v`, if any ("assuming that there is only 1
ground-truth per video"). -/
def firstGt? (ground_truth : List GtRow) (v : ℕ) : Option ResponseTrack :=
  (gtGroup ground_truth v).head?.map GtRow.response_track

/-- Models the `st_iou[tidx, idx]` slot: the whole-track spatio-temporal IoU
of prediction row `p` against the first ground-truth track of its video,
written unchanged into every threshold slot (`iou_thr` is carried only to
mirror the array shape).  Rows whose video has no ground truth are skipped
by the scoring loop, so their slots keep the initial `0`. -/
def st_iou (C : Collaborators) (ground_truth : List GtRow) (iou_thr : ℚ)
    (p : PredRow) : ℚ :=
  match firstGt? ground_truth p.videoId with
  | none => 0
  | some g => C.spatio_temporal_iou p.response_track g

/-- Models `list(stiou_matches.values())`: the per-frame matched IoU values
of prediction row `p` against the first ground-truth track of its video
(empty for skipped rows, whose slots keep the initial `0`). -/
def matched_values (C : Collaborators) (ground_truth : List GtRow)
    (p : PredRow) : List ℚ :=
  match firstGt? ground_truth p.videoId with
  | none => []
  | some g => C.spatio_temporal_iou_matches p.response_track g

/-- Models `stiou_values[stiou_values >= iou_thr]`: the per-frame matched IoU
values that clear the threshold. -/
def accurate_values (C : Collaborators) (ground_truth : List GtRow)
    (iou_thr : ℚ) (p : PredRow) : List ℚ :=
  (matched_values C ground_truth p).filter (fun v => decide (iou_thr ≤ v))

/-- Models the `track_acc_count[tidx, idx]` slot:
`np.count_nonzero(stiou_values >= iou_thr)`. -/
def track_acc_count (C : Collaborators) (ground_truth : List GtRow)
    (iou_thr : ℚ) (p : PredRow) : ℕ :=
  (accurate_values C ground_truth iou_thr p).length

/-- Models the `iou_sum[tidx, idx]` slot:
`stiou_values[stiou_values >= iou_thr].sum()`. -/
def iou_sum (C : Collaborators) (ground_truth : List GtRow)
    (iou_thr : ℚ) (p : PredRow) : ℚ :=
  (accurate_values C ground_truth iou_thr p).sum

/-- Models the `track_total_count[tidx, idx]` slot:
`this_gt["response_track"].values[0].length` (zero for skipped rows). -/
def track_total_count (ground_truth : List GtRow) (iou_thr : ℚ)
    (p : PredRow) : ℤ :=
  match firstGt? ground_truth p.videoId with
  | none => 0
  | some g => g.length

/-- Models `np.argmax` over the `key` values of a list: the first element
attaining the maximum (`none` on an empty list, where NumPy would raise). -/
def argmaxFirst {α : Type} (key : α → ℚ) : List α → Option α
  | [] => none
  | a :: l => some (l.foldl (fun best x => if key best < key x then x else best) a)

/-- Models `prediction.groupby("video-id").get_group(v)` on the sorted
prediction table: the rows of video `v` in sorted-table order. -/
def videoGroup (sorted : List PredRow) (v : ℕ) : List PredRow :=
  sorted.filter (fun p => decide (p.videoId = v))

/-- Winner selection for one video group and one threshold: the first row of
the group attaining the maximum whole-track IoU (`take_max_stiou`, via
`st_iou[tidx, pred_idxs].argmax()`) or the maximum score (`take_max_score`,
via `prediction_videoid["score"].values.argmax()`). -/
def winner (C : Collaborators) (ground_truth : List GtRow) (mode : Mode)
    (iou_thr : ℚ) (grp : List PredRow) : Option PredRow :=
  match mode with
  | .take_max_stiou => argmaxFirst (st_iou C ground_truth iou_thr) grp
  | .take_max_score => argmaxFirst PredRow.score grp

/-- Winner rows gathered over the ground-truth table: one winning prediction
per ground-truth row (rows whose video group would be empty are the
`KeyError` case and are guarded against in `compute_tracking_metrics`). -/
def winner_rows (C : Collaborators) (ground_truth : List GtRow)
    (sorted : List PredRow) (mode : Mode) (iou_thr : ℚ) : List PredRow :=
  ground_truth.filterMap
    (fun g => winner C ground_truth mode iou_thr (videoGroup sorted g.videoId))

/-- Models `track_acc_count.sum()` over the selected winners at one
threshold (`final_track_acc_count[tidx]`). -/
def acc_count_sum (C : Collaborators) (ground_truth : List GtRow)
    (sorted : List PredRow) (mode : Mode) (iou_thr : ℚ) : ℚ :=
  ((winner_rows C ground_truth sorted mode iou_thr).map
    (fun p => ((track_acc_count C ground_truth iou_thr p : ℕ) : ℚ))).sum

/-- Models `track_total_count.sum()` over the selected winners at one
threshold (`final_track_total_count[tidx]`). -/
def total_count_sum (C : Collaborators) (ground_truth : List GtRow)
    (sorted : List PredRow) (mode : Mode) (iou_thr : ℚ) : ℚ :=
  ((winner_rows C ground_truth sorted mode iou_thr).map
    (fun p => ((track_total_count ground_truth iou_thr p : ℤ) : ℚ))).sum

/-- Robustness at one threshold:
`100.0 * track_acc_count.sum() / track_total_count.sum()` when the
denominator is positive, and the initial `0` otherwise. -/
def robustnessAt (C : Collaborators) (ground_truth : List GtRow)
    (sorted : List PredRow) (mode : Mode) (iou_thr : ℚ) : ℚ :=
  if 0 < total_count_sum C ground_truth sorted mode iou_thr then
    100 * acc_count_sum C ground_truth sorted mode iou_thr /
      total_count_sum C ground_truth sorted mode iou_thr
  else 0

/-- The aggregator `compute_tracking_metrics`.  Returns the "% recovery"
vector (one entry per threshold), or the uncaught `KeyError` that
`prediction_gbvn.get_group` raises when some ground-truth row has no
prediction for its video (only reachable when the prediction table is
non-empty, because an empty prediction table returns the zero vector
immediately). -/
def compute_tracking_metrics (C : Collaborators) (ground_truth : List GtRow)
    (prediction : List PredRow) (iou_thresholds : List ℚ) (mode : Mode) :
    Except String (List ℚ) :=
  if prediction.isEmpty then
    Except.ok (iou_thresholds.map (fun _ => (0 : ℚ)))
  else
    let sorted := sortPredictions prediction
    if ground_truth.all (fun g => decide (videoGroup sorted g.videoId ≠ [])) then
      Except.ok (iou_thresholds.map (robustnessAt C ground_truth sorted mode))
    else
      Except.error "KeyError"

namespace TrackingMetrics

/-- The class attribute `iou_thresholds = np.array([0.5, 0.75, 0.95])`. -/
def iou_thresholds : List ℚ := [1/2, 3/4, 19/20]

/-- The default threshold grid of `compute_tracking_metrics`,
`np.linspace(0.5, 0.95, 10)` (step `0.05`); the facade never passes it. -/
def default_iou_thresholds : List ℚ :=
  [1/2, 11/20, 3/5, 13/20, 7/10, 3/4, 4/5, 17/20, 9/10, 19/20]

/-- Models `_import_ground_truth`: list index becomes the `video-id`. -/
def import_ground_truth (ground_truth : List ResponseTrack) : List GtRow :=
  ground_truth.enum.map (fun ig => ⟨ig.1, ig.2⟩)

/-- Models `_import_prediction`: outer list index becomes the `video-id`,
each inner track becomes a row carrying its own `score`. -/
def import_prediction (prediction : List (List ResponseTrack)) : List PredRow :=
  (prediction.enum.map (fun ip => ip.2.map (fun p => PredRow.mk ip.1 p p.score))).flatten

/-- Models `evaluate()`: one invocation of the aggregator over the class
grid `iou_thresholds`, storing the raw vector (`self.tracking_metrics`)
together with its mean (`self.average_tracking_metrics`). -/
def evaluate (C : Collaborators) (ground_truth : List ResponseTrack)
    (prediction : List (List ResponseTrack)) (mode : Mode) :
    Except String (List ℚ × ℚ) :=
  Except.map (fun rs => (rs, rs.sum / (rs.length : ℚ)))
    (compute_tracking_metrics C (import_ground_truth ground_truth)
      (import_prediction prediction) iou_thresholds mode)

end TrackingMetrics

deriving instance DecidableEq for Except

/-- Combinator describing the last element of a sorted list after an
`orderedInsertScore`: the inserted row lands at the end exactly when its
score exceeds the previous last score. -/
def insEnd (a : PredRow) : Option PredRow → PredRow
  | none => a
  | some m => if m.score < a.score then a else m

/-- Fold step selecting the later element on score ties (the "last argmax"
step, dual to the first-occurrence `np.argmax`). -/
def maxLastStep (best x : PredRow) : PredRow :=
  if best.score ≤ x.score then x else best

/-- The element of a list attaining the maximal score, picking the last one
on ties (`none` on the empty list). -/
def argmaxLastScore : List PredRow → Option PredRow
  | [] => none
  | a :: l => some (l.foldl maxLastStep a)

/-- Concrete ground-truth track of the spec scenario: length 10. -/
def gtT : ResponseTrack := ⟨0, 10, 0⟩

/-- Concrete prediction track P1 of the spec scenario: score 0.9. -/
def p1T : ResponseTrack := ⟨1, 0, 9/10⟩

/-- Concrete prediction track P2 of the spec scenario: score 0.3. -/
def p2T : ResponseTrack := ⟨2, 0, 3/10⟩

/-- Concrete collaborators: track P1 has whole-track IoU 0.3 and five matched
frames of per-frame IoU 0.6; track P2 has whole-track IoU 0.8 and ten matched
frames of per-frame IoU 0.8; every other track matches nothing. -/
def Cex : Collaborators :=
  ⟨fun tr _ => if tr.tid = 1 then 3/10 else if tr.tid = 2 then 4/5 else 0,
   fun tr _ => if tr.tid = 1 then List.replicate 5 (3/5)
               else if tr.tid = 2 then List.replicate 10 (4/5) else []⟩

/-- Concrete one-video ground-truth table. -/
def gts0 : List GtRow := [⟨0, gtT⟩]

/-- Concrete prediction rows of the spec scenario. -/
def p1row : PredRow := ⟨0, p1T, 9/10⟩

/-- Concrete prediction row for P2. -/
def p2row : PredRow := ⟨0, p2T, 3/10⟩

/-- Concrete prediction table of the spec scenario. -/
def predsC1 : List PredRow := [p1row, p2row]

/-- Concrete prediction row carrying the P2 track but tied with P1 on score,
used to exercise the score tie-break. -/
def tie2row : PredRow := ⟨0, p2T, 9/10⟩

/-- Concrete false-positive prediction row: video 7 has no ground truth. -/
def fprow : PredRow := ⟨7, p2T, 1⟩

/-- Concrete prediction table whose only row belongs to video 1, leaving the
ground-truth video 0 without predictions. -/
def predsW : List PredRow := [⟨1, p1T, 1/2⟩]

/-- Membership characterisation of `orderedInsertScore`. -/
theorem mem_orderedInsertScore {a p : PredRow} {l : List PredRow} :
    a ∈ orderedInsertScore p l ↔ a = p ∨ a ∈ l := by
  induction l with
  | nil => simp [orderedInsertScore]
  | cons q l ih =>
    simp only [orderedInsertScore]
    split
    · simp [List.mem_cons]
    · simp only [List.mem_cons, ih]
      tauto

/-- Insertion never produces the empty list. -/
theorem orderedInsertScore_ne_nil (p : PredRow) (l : List PredRow) :
    orderedInsertScore p l ≠ [] := by
  cases l with
  | nil => simp [orderedInsertScore]
  | cons q l =>
    simp only [orderedInsertScore]
    split <;> simp

/-- The insertion sort is a permutation as far as membership goes. -/
theorem mem_insertionSortScore {a : PredRow} {l : List PredRow} :
    a ∈ insertionSortScore l ↔ a ∈ l := by
  induction l with
  | nil => simp [insertionSortScore]
  | cons p l ih => simp [insertionSortScore, mem_orderedInsertScore, ih]

/-- Membership in the descending-sorted prediction table. -/
theorem mem_sortPredictions {a : PredRow} {l : List PredRow} :
    a ∈ sortPredictions l ↔ a ∈ l := by
  simp [sortPredictions, List.mem_reverse, mem_insertionSortScore]

/-- Insertion preserves score-ascending sortedness. -/
theorem pairwise_orderedInsertScore {p : PredRow} {l : List PredRow}
    (h : l.Pairwise (fun a b => a.score ≤ b.score)) :
    (orderedInsertScore p l).Pairwise (fun a b => a.score ≤ b.score) := by
  induction l with
  | nil => simp [orderedInsertScore]
  | cons q l ih =>
    rw [List.pairwise_cons] at h
    obtain ⟨hq, hl⟩ := h
    simp only [orderedInsertScore]
    split
    · rename_i hpq
      refine List.pairwise_cons.2 ⟨?_, List.pairwise_cons.2 ⟨hq, hl⟩⟩
      intro b hb
      rcases List.mem_cons.1 hb with rfl | hb
      · exact hpq
      · exact le_trans hpq (hq b hb)
    · rename_i hpq
      push_neg at hpq
      refine List.pairwise_cons.2 ⟨?_, ih hl⟩
      intro b hb
      rcases mem_orderedInsertScore.1 hb with rfl | hb
      · exact le_of_lt hpq
      · exact hq b hb

/-- The insertion sort produces a score-ascending list. -/
theorem pairwise_insertionSortScore (l : List PredRow) :
    (insertionSortScore l).Pairwise (fun a b => a.score ≤ b.score) := by
  induction l with
  | nil => simp [insertionSortScore]
  | cons p l ih => exact pairwise_orderedInsertScore ih

/-- Inserting below every element of a list just prepends. -/
theorem orderedInsertScore_eq_cons {p : PredRow} {l : List PredRow}
    (h : ∀ q ∈ l, p.score ≤ q.score) : orderedInsertScore p l = p :: l := by
  cases l with
  | nil => rfl
  | cons q l =>
    simp only [orderedInsertScore]
    rw [if_pos (h q (List.mem_cons_self q l))]

/-- Filtering commutes with a stable insertion into a sorted list. -/
theorem filter_orderedInsertScore (q : PredRow → Bool) {p : PredRow}
    {l : List PredRow} (hl : l.Pairwise (fun a b => a.score ≤ b.score)) :
    (orderedInsertScore p l).filter q =
      if q p then orderedInsertScore p (l.filter q) else l.filter q := by
  induction l with
  | nil =>
    cases hqp : q p <;> simp [orderedInsertScore, List.filter_cons, hqp]
  | cons x l ih =>
    rw [List.pairwise_cons] at hl
    obtain ⟨hx, hl⟩ := hl
    simp only [orderedInsertScore]
    split
    · rename_i hpx
      have hins : orderedInsertScore p (List.filter q (x :: l)) =
          p :: List.filter q (x :: l) := by
        apply orderedInsertScore_eq_cons
        intro r hr
        rcases List.mem_cons.1 (List.mem_filter.1 hr).1 with rfl | hrm
        · exact hpx
        · exact le_trans hpx (hx r hrm)
      cases hqp : q p
      · simp [List.filter_cons, hqp]
      · rw [List.filter_cons, hqp, if_pos rfl, if_pos rfl, hins]
    · rename_i hpx
      push_neg at hpx
      have hstep : ∀ m : List PredRow, orderedInsertScore p (x :: m) =
          x :: orderedInsertScore p m := by
        intro m
        simp only [orderedInsertScore]
        rw [if_neg (not_le.2 hpx)]
      cases hqx : q x
      · cases hqp : q p <;>
          simp [List.filter_cons, hqx, hqp, ih hl]
      · cases hqp : q p <;>
          simp [List.filter_cons, hqx, hqp, ih hl, hstep]

/-- Filtering commutes with the stable insertion sort. -/
theorem filter_insertionSortScore (q : PredRow → Bool) (l : List PredRow) :
    (insertionSortScore l).filter q = insertionSortScore (l.filter q) := by
  induction l with
  | nil => rfl
  | cons p l ih =>
    simp only [insertionSortScore]
    rw [filter_orderedInsertScore q (pairwise_insertionSortScore l), ih,
      List.filter_cons]
    cases hqp : q p <;> simp [insertionSortScore]

/-- Grouping the sorted prediction table by a video is the reverse of the
sorted restriction of the original table to that video. -/
theorem videoGroup_sortPredictions (prediction : List PredRow) (v : ℕ) :
    videoGroup (sortPredictions prediction) v =
      (insertionSortScore
        (prediction.filter (fun p => decide (p.videoId = v)))).reverse := by
  unfold videoGroup sortPredictions
  rw [List.filter_reverse, filter_insertionSortScore]

/-- C1: on the spec scenario (one video of ground-truth length 10, P1 with
score 0.9 and five matched frames at IoU 0.6, P2 with score 0.3, higher
whole-track IoU and ten matched frames at IoU 0.8), at threshold 0.5 the
`take_max_score` mode selects P1 and returns robustness 50, while the
`take_max_stiou` mode selects P2 and returns robustness 100. -/
theorem claim1_concrete_scenario :
    st_iou Cex gts0 (1/2) p1row < st_iou Cex gts0 (1/2) p2row ∧
    winner Cex gts0 .take_max_score (1/2) (videoGroup (sortPredictions predsC1) 0) = some p1row ∧
    compute_tracking_metrics Cex gts0 predsC1 [1/2] .take_max_score = Except.ok [50] ∧
    winner Cex gts0 .take_max_stiou (1/2) (videoGroup (sortPredictions predsC1) 0) = some p2row ∧
    compute_tracking_metrics Cex gts0 predsC1 [1/2] .take_max_stiou = Except.ok [100] := by
  decide

/-- C4: with an empty prediction table the aggregator returns the all-zero
vector, one entry per threshold, for every ground-truth table, threshold
grid and mode, without error. -/
theorem claim4_empty_predictions_zero_vector (C : Collaborators)
    (ground_truth : List GtRow) (iou_thresholds : List ℚ) (mode : Mode) :
    compute_tracking_metrics C ground_truth [] iou_thresholds mode =
      Except.ok (iou_thresholds.map (fun _ => (0 : ℚ))) := by
  rfl

/-- C10: in `take_max_stiou` mode the selected winner of a video group does
not depend on the threshold, because the `st_iou` slot holds the same
whole-track IoU value at every threshold index. -/
theorem claim10_stiou_winner_threshold_independent (C : Collaborators)
    (ground_truth : List GtRow) (prediction : List PredRow) (v : ℕ)
    (t1 t2 : ℚ) :
    winner C ground_truth .take_max_stiou t1 (videoGroup (sortPredictions prediction) v) =
      winner C ground_truth .take_max_stiou t2 (videoGroup (sortPredictions prediction) v) ∧
    ∀ p : PredRow, st_iou C ground_truth t1 p = st_iou C ground_truth t2 p := by
  exact ⟨rfl, fun p => rfl⟩

/-- Helper: the element named by `getLast?` is a member of the list. -/
theorem mem_of_getLast?_eq {α : Type} {l : List α} {m : α}
    (h : l.getLast? = some m) : m ∈ l := by
  induction l with
  | nil => simp at h
  | cons a l ih =>
    cases l with
    | nil =>
      simp at h
      subst h
      exact List.mem_cons_self a []
    | cons b l2 =>
      rw [List.getLast?_cons_cons] at h
      exact List.mem_cons_of_mem a (ih h)

/-- Helper: the cons of a list has a last element. -/
theorem getLast?_cons_isSome (x : PredRow) (l : List PredRow) :
    ∃ m, (x :: l).getLast? = some m := by
  induction l generalizing x with
  | nil => exact ⟨x, rfl⟩
  | cons b l2 ih =>
    rw [List.getLast?_cons_cons]
    exact ih b

/-- In a score-ascending list, the last element dominates every member. -/
theorem getLast?_ge {l : List PredRow} {m : PredRow}
    (hp : l.Pairwise (fun a b => a.score ≤ b.score))
    (hm : l.getLast? = some m) : ∀ y ∈ l, y.score ≤ m.score := by
  induction l with
  | nil => simp at hm
  | cons a l ih =>
    rw [List.pairwise_cons] at hp
    obtain ⟨ha, hl⟩ := hp
    cases l with
    | nil =>
      simp at hm
      subst hm
      intro y hy
      rw [List.mem_singleton] at hy
      subst hy
      exact le_refl _
    | cons b l2 =>
      rw [List.getLast?_cons_cons] at hm
      intro y hy
      rcases List.mem_cons.1 hy with rfl | hy2
      · exact ha m (mem_of_getLast?_eq hm)
      · exact ih hl hm y hy2

/-- The last element after inserting `a` into a sorted list is computed by
`insEnd`. -/
theorem getLast?_orderedInsertScore (a : PredRow) {l : List PredRow}
    (hp : l.Pairwise (fun x y => x.score ≤ y.score)) :
    (orderedInsertScore a l).getLast? = some (insEnd a l.getLast?) := by
  induction l with
  | nil => rfl
  | cons x l ih =>
    rw [List.pairwise_cons] at hp
    obtain ⟨hx, hl⟩ := hp
    simp only [orderedInsertScore]
    split
    · rename_i hax
      rw [List.getLast?_cons_cons]
      obtain ⟨m, hm⟩ := getLast?_cons_isSome x l
      rw [hm, insEnd]
      have hmem := mem_of_getLast?_eq hm
      have ham : a.score ≤ m.score := by
        rcases List.mem_cons.1 hmem with rfl | h2
        · exact hax
        · exact le_trans hax (hx m h2)
      rw [if_neg (not_lt.2 ham)]
    · rename_i hax
      push_neg at hax
      obtain ⟨c, t, hct⟩ : ∃ c t, orderedInsertScore a l = c :: t := by
        cases h : orderedInsertScore a l with
        | nil => exact absurd h (orderedInsertScore_ne_nil a l)
        | cons c t => exact ⟨c, t, rfl⟩
      rw [hct, List.getLast?_cons_cons, ← hct, ih hl]
      cases l with
      | nil => simp [insEnd, if_pos hax]
      | cons b l2 => rw [List.getLast?_cons_cons]

/-- Composition law of `insEnd` with itself, matching one `maxLastStep`. -/
theorem insEnd_insEnd (b x : PredRow) (o : Option PredRow) :
    insEnd b (some (insEnd x o)) = insEnd (maxLastStep b x) o := by
  cases o with
  | none =>
    simp only [insEnd, maxLastStep]
    split_ifs <;> first | rfl | linarith
  | some m =>
    simp only [insEnd, maxLastStep]
    split_ifs <;> first | rfl | linarith

/-- The last element of the sort after one more insertion is the left fold
of `maxLastStep` over the unsorted input. -/
theorem getLast?_orderedInsert_sort (m : List PredRow) :
    ∀ b : PredRow, (orderedInsertScore b (insertionSortScore m)).getLast? =
      some (m.foldl maxLastStep b) := by
  induction m with
  | nil => intro b; rfl
  | cons x m ih =>
    intro b
    have hS := pairwise_insertionSortScore m
    have hSx := pairwise_orderedInsertScore (p := x) hS
    show (orderedInsertScore b (orderedInsertScore x (insertionSortScore m))).getLast? = _
    rw [getLast?_orderedInsertScore b hSx, getLast?_orderedInsertScore x hS,
      insEnd_insEnd, List.foldl_cons, ← getLast?_orderedInsertScore _ hS, ih]

/-- The last element of the stable ascending sort is the last score argmax
of the unsorted list. -/
theorem getLast?_insertionSortScore (m : List PredRow) :
    (insertionSortScore m).getLast? = argmaxLastScore m := by
  cases m with
  | nil => rfl
  | cons a m => exact getLast?_orderedInsert_sort m a

/-- The first-occurrence argmax fold never moves off a dominating start. -/
theorem foldl_argmaxFirst_const {α : Type} (key : α → ℚ) (a : α)
    (l : List α) (h : ∀ x ∈ l, key x ≤ key a) :
    l.foldl (fun best x => if key best < key x then x else best) a = a := by
  induction l with
  | nil => rfl
  | cons x l ih =>
    rw [List.foldl_cons, if_neg (not_lt.2 (h x (List.mem_cons_self x l)))]
    exact ih (fun y hy => h y (List.mem_cons_of_mem x hy))

/-- On the reverse of a score-ascending list, the first-occurrence argmax is
the last element of the list. -/
theorem argmaxFirst_reverse {l : List PredRow}
    (hp : l.Pairwise (fun a b => a.score ≤ b.score)) :
    argmaxFirst PredRow.score l.reverse = l.getLast? := by
  cases hrev : l.reverse with
  | nil =>
    have hnil : l = [] := List.reverse_eq_nil_iff.1 hrev
    subst hnil
    rfl
  | cons m t =>
    have hhead : l.getLast? = some m := by
      rw [← List.head?_reverse, hrev]
      rfl
    rw [hhead]
    show some (t.foldl _ m) = some m
    congr 1
    apply foldl_argmaxFirst_const
    intro x hx
    have hxl : x ∈ l := by
      rw [← List.mem_reverse, hrev]
      exact List.mem_cons_of_mem m hx
    exact getLast?_ge hp hhead x hxl

/-- C5 counterexample: two predictions of video 0 tie at score 0.9; the
winner under `take_max_score` is `tie2row`, the prediction occurring second
in the input table, not the first-occurring `p1row` that the claim names,
and the returned robustness is the one produced by the second prediction. -/
theorem claim5_counterexample :
    p1row.score = tie2row.score ∧
    winner Cex gts0 .take_max_score (1/2)
      (videoGroup (sortPredictions [p1row, tie2row]) 0) = some tie2row ∧
    some tie2row ≠ some p1row ∧
    compute_tracking_metrics Cex gts0 [p1row, tie2row] [1/2] .take_max_score =
      Except.ok [100] := by
  decide

/-- C5 (amended): the aggregator orders predictions by reversing a stable
ascending sort by score, so in `take_max_score` mode the winner of a video
is the prediction of that video attaining the maximum score and, among tied
maxima, the one occurring last in the original input order. -/
theorem claim5_tie_break_last_wins (C : Collaborators)
    (ground_truth : List GtRow) (iou_thr : ℚ) (prediction : List PredRow)
    (v : ℕ) :
    winner C ground_truth .take_max_score iou_thr
        (videoGroup (sortPredictions prediction) v) =
      argmaxLastScore (prediction.filter (fun p => decide (p.videoId = v))) := by
  show argmaxFirst PredRow.score (videoGroup (sortPredictions prediction) v) = _
  rw [videoGroup_sortPredictions, argmaxFirst_reverse (pairwise_insertionSortScore _),
    getLast?_insertionSortScore]

/-- C2: whenever at least one prediction exists but some ground-truth row
has no prediction for its video, the aggregator fails with the uncaught
lookup error from `prediction_gbvn.get_group` and never returns a vector. -/
theorem claim2_missing_predictions_error (C : Collaborators)
    (ground_truth : List GtRow) (prediction : List PredRow)
    (iou_thresholds : List ℚ) (mode : Mode)
    (hne : prediction ≠ [])
    (hmiss : ∃ g ∈ ground_truth, ∀ p ∈ prediction, p.videoId ≠ g.videoId) :
    compute_tracking_metrics C ground_truth prediction iou_thresholds mode =
      Except.error "KeyError" := by
  obtain ⟨g, hg, hnp⟩ := hmiss
  have hgrp : videoGroup (sortPredictions prediction) g.videoId = [] := by
    apply List.filter_eq_nil_iff.2
    intro p hp
    simp only [decide_eq_true_eq]
    exact hnp p (mem_sortPredictions.1 hp)
  have hall : ¬ (ground_truth.all
      (fun g2 => decide (videoGroup (sortPredictions prediction) g2.videoId ≠ [])) = true) := by
    intro hcontra
    have := List.all_eq_true.1 hcontra g hg
    rw [decide_eq_true_eq] at this
    exact this hgrp
  unfold compute_tracking_metrics
  rw [if_neg (by simp [List.isEmpty_iff, hne]), if_neg hall]

/-- C2 witness: the concrete table whose only prediction belongs to video 1
leaves ground-truth video 0 unmatched, and the aggregator raises. -/
theorem claim2_missing_predictions_error_instance :
    compute_tracking_metrics Cex gts0 predsW [1/2] .take_max_score =
      Except.error "KeyError" :=
  claim2_missing_predictions_error Cex gts0 predsW [1/2] .take_max_score
    (by decide) ⟨⟨0, gtT⟩, by decide, by decide⟩

/-- Removing a row whose video the filter is not looking for does not change
the filtered table. -/
theorem filter_video_erase (l1 l2 : List PredRow) (p0 : PredRow) (v : ℕ)
    (hv : v ≠ p0.videoId) :
    (l1 ++ p0 :: l2).filter (fun p => decide (p.videoId = v)) =
      (l1 ++ l2).filter (fun p => decide (p.videoId = v)) := by
  rw [List.filter_append, List.filter_append, List.filter_cons,
    if_neg (by simp only [decide_eq_true_eq]; exact fun h => hv h.symm)]

/-- Removing a false-positive row does not change any video group that the
winner-selection loop looks up. -/
theorem videoGroup_erase_fp (l1 l2 : List PredRow) (p0 : PredRow) (v : ℕ)
    (hv : v ≠ p0.videoId) :
    videoGroup (sortPredictions (l1 ++ p0 :: l2)) v =
      videoGroup (sortPredictions (l1 ++ l2)) v := by
  rw [videoGroup_sortPredictions, videoGroup_sortPredictions,
    filter_video_erase l1 l2 p0 v hv]

/-- Helper: every ground-truth row keeps a non-empty prediction group when
each ground-truth video is covered by the prediction table. -/
theorem videoGroup_ne_nil_of_covered (prediction : List PredRow) (g : GtRow)
    (hcov : ∃ p ∈ prediction, p.videoId = g.videoId) :
    videoGroup (sortPredictions prediction) g.videoId ≠ [] := by
  obtain ⟨p, hp, hpv⟩ := hcov
  apply List.ne_nil_of_mem (a := p)
  exact List.mem_filter.2 ⟨mem_sortPredictions.2 hp, by simp [hpv]⟩

/-- C3 counterexample: a prediction table consisting of one false positive
(video 7, which has no ground truth) makes the aggregator raise the lookup
error for ground-truth video 0, so the claim that a false-positive
prediction never leads to a raised error fails on this input. -/
theorem claim3_counterexample :
    firstGt? gts0 fprow.videoId = none ∧
    compute_tracking_metrics Cex gts0 [fprow] [1/2] .take_max_score =
      Except.error "KeyError" := by
  decide

/-- C3 (amended): a prediction whose video has no ground-truth entry is
silently skipped, provided every ground-truth video is covered by the
remaining predictions (so the lookup failure of C2 is not triggered): the
result with the false positive equals the result without it, the call
succeeds, and hence the false positive contributes to no numerator or
denominator at any threshold. -/
theorem claim3_false_positive_skipped (C : Collaborators)
    (ground_truth : List GtRow) (l1 l2 : List PredRow) (p0 : PredRow)
    (iou_thresholds : List ℚ) (mode : Mode)
    (hfp : ∀ g ∈ ground_truth, g.videoId ≠ p0.videoId)
    (hcov : ∀ g ∈ ground_truth, ∃ p ∈ l1 ++ l2, p.videoId = g.videoId) :
    compute_tracking_metrics C ground_truth (l1 ++ p0 :: l2) iou_thresholds mode =
      compute_tracking_metrics C ground_truth (l1 ++ l2) iou_thresholds mode ∧
    ∃ rs, compute_tracking_metrics C ground_truth (l1 ++ p0 :: l2)
        iou_thresholds mode = Except.ok rs := by
  have hne1 : ¬ ((l1 ++ p0 :: l2).isEmpty = true) := by
    simp [List.isEmpty_iff]
  have hall1 : (ground_truth.all (fun g => decide
      (videoGroup (sortPredictions (l1 ++ p0 :: l2)) g.videoId ≠ []))) = true := by
    rw [List.all_eq_true]
    intro g hg
    rw [decide_eq_true_eq, videoGroup_erase_fp l1 l2 p0 g.videoId (hfp g hg)]
    exact videoGroup_ne_nil_of_covered (l1 ++ l2) g (hcov g hg)
  have hrs1 : compute_tracking_metrics C ground_truth (l1 ++ p0 :: l2)
      iou_thresholds mode = Except.ok (iou_thresholds.map
        (robustnessAt C ground_truth (sortPredictions (l1 ++ p0 :: l2)) mode)) := by
    unfold compute_tracking_metrics
    rw [if_neg hne1, if_pos hall1]
  refine ⟨?_, ⟨_, hrs1⟩⟩
  by_cases hemp : (l1 ++ l2).isEmpty = true
  · have hnil : l1 ++ l2 = [] := List.isEmpty_iff.1 hemp
    have hgt : ground_truth = [] := by
      cases hgtc : ground_truth with
      | nil => rfl
      | cons g gs =>
        obtain ⟨p, hp, _⟩ := hcov g (by rw [hgtc]; exact List.mem_cons_self g gs)
        rw [hnil] at hp
        simp at hp
    subst hgt
    rw [hrs1]
    show _ = compute_tracking_metrics C [] (l1 ++ l2) iou_thresholds mode
    unfold compute_tracking_metrics
    rw [if_pos hemp]
    congr 1
  · have hall2 : (ground_truth.all (fun g => decide
        (videoGroup (sortPredictions (l1 ++ l2)) g.videoId ≠ []))) = true := by
      rw [List.all_eq_true]
      intro g hg
      rw [decide_eq_true_eq]
      exact videoGroup_ne_nil_of_covered (l1 ++ l2) g (hcov g hg)
    have hrs2 : compute_tracking_metrics C ground_truth (l1 ++ l2)
        iou_thresholds mode = Except.ok (iou_thresholds.map
          (robustnessAt C ground_truth (sortPredictions (l1 ++ l2)) mode)) := by
      unfold compute_tracking_metrics
      rw [if_neg hemp, if_pos hall2]
    rw [hrs1, hrs2]
    congr 1
    apply List.map_congr_left
    intro t _
    have hwr : winner_rows C ground_truth (sortPredictions (l1 ++ p0 :: l2)) mode t =
        winner_rows C ground_truth (sortPredictions (l1 ++ l2)) mode t := by
      unfold winner_rows
      apply List.filterMap_congr
      intro g hg
      rw [videoGroup_erase_fp l1 l2 p0 g.videoId (hfp g hg)]
    unfold robustnessAt acc_count_sum total_count_sum
    rw [hwr]

/-- C3 witness: appending the concrete false positive `fprow` to the
one-prediction table of video 0 leaves the result unchanged. -/
theorem claim3_false_positive_skipped_instance :
    compute_tracking_metrics Cex gts0 [p1row, fprow] [1/2] .take_max_score =
      compute_tracking_metrics Cex gts0 [p1row] [1/2] .take_max_score :=
  (claim3_false_positive_skipped Cex gts0 [p1row] [] fprow [1/2]
    .take_max_score (by decide) (by decide)).1

/-- The selected winner of a group does not depend on the threshold in
either mode: the score column is threshold-free and the `st_iou` slots hold
the same value at every threshold index. -/
theorem winner_thr_indep (C : Collaborators) (ground_truth : List GtRow)
    (mode : Mode) (t1 t2 : ℚ) (grp : List PredRow) :
    winner C ground_truth mode t1 grp = winner C ground_truth mode t2 grp := by
  cases mode <;> rfl

/-- The winner rows gathered over the ground-truth table do not depend on
the threshold. -/
theorem winner_rows_thr_indep (C : Collaborators) (ground_truth : List GtRow)
    (sorted : List PredRow) (mode : Mode) (t1 t2 : ℚ) :
    winner_rows C ground_truth sorted mode t1 =
      winner_rows C ground_truth sorted mode t2 := by
  unfold winner_rows
  exact List.filterMap_congr
    (fun g _ => winner_thr_indep C ground_truth mode t1 t2 _)

/-- The summed denominator does not depend on the threshold. -/
theorem total_count_sum_thr_indep (C : Collaborators)
    (ground_truth : List GtRow) (sorted : List PredRow) (mode : Mode)
    (t1 t2 : ℚ) :
    total_count_sum C ground_truth sorted mode t1 =
      total_count_sum C ground_truth sorted mode t2 := by
  unfold total_count_sum
  rw [winner_rows_thr_indep C ground_truth sorted mode t1 t2]
  apply congrArg List.sum
  apply List.map_congr_left
  intro p _
  unfold track_total_count
  rfl

/-- Raising the threshold cannot increase the accurate-frame count of a
prediction. -/
theorem track_acc_count_antitone (C : Collaborators)
    (ground_truth : List GtRow) (p : PredRow) {t1 t2 : ℚ} (h : t1 ≤ t2) :
    track_acc_count C ground_truth t2 p ≤ track_acc_count C ground_truth t1 p := by
  unfold track_acc_count accurate_values
  apply List.Sublist.length_le
  apply List.monotone_filter_right
  intro v hv
  simp only [decide_eq_true_eq] at hv ⊢
  linarith

/-- Raising the threshold cannot increase the summed accurate-frame count. -/
theorem acc_count_sum_antitone (C : Collaborators) (ground_truth : List GtRow)
    (sorted : List PredRow) (mode : Mode) {t1 t2 : ℚ} (h : t1 ≤ t2) :
    acc_count_sum C ground_truth sorted mode t2 ≤
      acc_count_sum C ground_truth sorted mode t1 := by
  unfold acc_count_sum
  rw [winner_rows_thr_indep C ground_truth sorted mode t2 t1]
  apply List.sum_le_sum
  intro p _
  exact_mod_cast track_acc_count_antitone C ground_truth p h

/-- Robustness is antitone in the threshold. -/
theorem robustnessAt_antitone (C : Collaborators) (ground_truth : List GtRow)
    (sorted : List PredRow) (mode : Mode) {t1 t2 : ℚ} (h : t1 ≤ t2) :
    robustnessAt C ground_truth sorted mode t2 ≤
      robustnessAt C ground_truth sorted mode t1 := by
  unfold robustnessAt
  rw [total_count_sum_thr_indep C ground_truth sorted mode t2 t1]
  by_cases hT : 0 < total_count_sum C ground_truth sorted mode t1
  · rw [if_pos hT, if_pos hT]
    rw [div_le_div_iff_of_pos_right hT]
    exact mul_le_mul_of_nonneg_left
      (acc_count_sum_antitone C ground_truth sorted mode h) (by norm_num)
  · rw [if_neg hT, if_neg hT]

/-- Reading an entry of a mapped list through `getD` applies the function to
the corresponding entry of the original list. -/
theorem getD_map_of_lt (f : ℚ → ℚ) (l : List ℚ) {n : ℕ}
    (hn : n < l.length) : (l.map f).getD n 0 = f (l.getD n 0) := by
  rw [List.getD_eq_getElem?_getD, List.getElem?_map,
    List.getElem?_eq_getElem hn, List.getD_eq_getElem?_getD,
    List.getElem?_eq_getElem hn]
  rfl

/-- C6: for a fixed input, robustness is monotonically non-increasing along
the threshold grid: whenever the i-th threshold is at most the j-th
threshold, the returned j-th robustness is at most the i-th. -/
theorem claim6_threshold_monotonicity (C : Collaborators)
    (ground_truth : List GtRow) (prediction : List PredRow)
    (iou_thresholds : List ℚ) (mode : Mode) (rs : List ℚ) (i j : ℕ)
    (hi : i < iou_thresholds.length) (hj : j < iou_thresholds.length)
    (hok : compute_tracking_metrics C ground_truth prediction iou_thresholds
      mode = Except.ok rs)
    (hij : iou_thresholds.getD i 0 ≤ iou_thresholds.getD j 0) :
    rs.getD j 0 ≤ rs.getD i 0 := by
  unfold compute_tracking_metrics at hok
  by_cases hp : prediction.isEmpty = true
  · rw [if_pos hp] at hok
    injection hok with hok
    subst hok
    rw [getD_map_of_lt _ _ hi, getD_map_of_lt _ _ hj]
  · rw [if_neg hp] at hok
    by_cases hall : (ground_truth.all (fun g => decide
        (videoGroup (sortPredictions prediction) g.videoId ≠ []))) = true
    · rw [if_pos hall] at hok
      injection hok with hok
      subst hok
      rw [getD_map_of_lt _ _ hi, getD_map_of_lt _ _ hj]
      exact robustnessAt_antitone C ground_truth (sortPredictions prediction)
        mode hij
    · rw [if_neg hall] at hok
      exact absurd hok (by simp)

/-- C6 witness: on the spec scenario with grid `[0.5, 0.75]` the robustness
vector is `[50, 0]` and the entry at the higher threshold is not larger. -/
theorem claim6_threshold_monotonicity_instance :
    ([(50 : ℚ), 0].getD 1 0) ≤ ([(50 : ℚ), 0].getD 0 0) :=
  claim6_threshold_monotonicity Cex gts0 predsC1 [1/2, 3/4] .take_max_score
    [50, 0] 0 1 (by decide) (by decide) (by decide) (by decide)

/-- The first-occurrence argmax fold stays inside the start-extended list. -/
theorem foldl_argmax_mem {α : Type} (key : α → ℚ) (l : List α) (a : α) :
    l.foldl (fun best x => if key best < key x then x else best) a ∈ a :: l := by
  induction l generalizing a with
  | nil => simp
  | cons x l ih =>
    rw [List.foldl_cons]
    have h := ih (if key a < key x then x else a)
    rcases List.mem_cons.1 h with he | hm
    · rw [he]
      split_ifs
      · exact List.mem_cons_of_mem a (List.mem_cons_self x l)
      · exact List.mem_cons_self a (x :: l)
    · exact List.mem_cons_of_mem a (List.mem_cons_of_mem x hm)

/-- A selected argmax is a member of its list. -/
theorem argmaxFirst_mem {α : Type} {key : α → ℚ} {l : List α} {a : α}
    (h : argmaxFirst key l = some a) : a ∈ l := by
  cases l with
  | nil => simp [argmaxFirst] at h
  | cons x l =>
    have hmem := foldl_argmax_mem key l x
    unfold argmaxFirst at h
    injection h with h
    rw [h] at hmem
    exact hmem

/-- A selected winner belongs to its video group. -/
theorem winner_mem {C : Collaborators} {ground_truth : List GtRow}
    {mode : Mode} {t : ℚ} {grp : List PredRow} {p : PredRow}
    (h : winner C ground_truth mode t grp = some p) : p ∈ grp := by
  cases mode <;> exact argmaxFirst_mem h

/-- Under the collaborator contract on matched-frame counts, the
accurate-frame count of a prediction never exceeds its video's ground-truth
track length. -/
theorem acc_le_total_of_contract (C : Collaborators)
    (ground_truth : List GtRow) (prediction : List PredRow) (t : ℚ)
    (p : PredRow) (hp : p ∈ prediction)
    (h2 : ∀ q ∈ prediction, ∀ g, firstGt? ground_truth q.videoId = some g →
      ((C.spatio_temporal_iou_matches q.response_track g).length : ℤ) ≤ g.length) :
    ((track_acc_count C ground_truth t p : ℕ) : ℚ) ≤
      ((track_total_count ground_truth t p : ℤ) : ℚ) := by
  cases hfg : firstGt? ground_truth p.videoId with
  | none =>
    simp [track_acc_count, accurate_values, matched_values,
      track_total_count, hfg]
  | some g =>
    simp only [track_acc_count, accurate_values, matched_values,
      track_total_count, hfg]
    have hlen := h2 p hp g hfg
    have hfil : ((C.spatio_temporal_iou_matches p.response_track g).filter
        (fun v => decide (t ≤ v))).length ≤
        (C.spatio_temporal_iou_matches p.response_track g).length :=
      List.length_filter_le _ _
    have h4 : (((C.spatio_temporal_iou_matches p.response_track g).filter
        (fun v => decide (t ≤ v))).length : ℤ) ≤ g.length :=
      le_trans (by exact_mod_cast hfil) hlen
    exact_mod_cast h4

/-- C7: under the collaborator contract (per-frame IoU values in `[0,1]`,
matched-frame counts bounded by the ground-truth track length, non-negative
track lengths), every returned robustness value lies in `[0, 100]`, and a
threshold whose summed ground-truth denominator is zero yields robustness
zero. -/
theorem claim7_robustness_bounds (C : Collaborators)
    (ground_truth : List GtRow) (prediction : List PredRow)
    (iou_thresholds : List ℚ) (mode : Mode) (rs : List ℚ)
    (h1 : ∀ tr g : ResponseTrack,
      ∀ v ∈ C.spatio_temporal_iou_matches tr g, 0 ≤ v ∧ v ≤ 1)
    (h2 : ∀ q ∈ prediction, ∀ g, firstGt? ground_truth q.videoId = some g →
      ((C.spatio_temporal_iou_matches q.response_track g).length : ℤ) ≤ g.length)
    (h3 : ∀ g ∈ ground_truth, 0 ≤ g.response_track.length)
    (hok : compute_tracking_metrics C ground_truth prediction iou_thresholds
      mode = Except.ok rs) :
    (∀ r ∈ rs, 0 ≤ r ∧ r ≤ 100) ∧
    (∀ i < iou_thresholds.length,
      total_count_sum C ground_truth (sortPredictions prediction) mode
          (iou_thresholds.getD i 0) = 0 →
      rs.getD i 0 = 0) := by
  unfold compute_tracking_metrics at hok
  by_cases hp : prediction.isEmpty = true
  · rw [if_pos hp] at hok
    injection hok with hok
    subst hok
    constructor
    · intro r hr
      rw [List.mem_map] at hr
      obtain ⟨t, _, rfl⟩ := hr
      norm_num
    · intro i hi _
      rw [getD_map_of_lt _ _ hi]
  · rw [if_neg hp] at hok
    by_cases hall : (ground_truth.all (fun g => decide
        (videoGroup (sortPredictions prediction) g.videoId ≠ []))) = true
    · rw [if_pos hall] at hok
      injection hok with hok
      subst hok
      have key : ∀ t : ℚ,
          0 ≤ robustnessAt C ground_truth (sortPredictions prediction) mode t ∧
          robustnessAt C ground_truth (sortPredictions prediction) mode t ≤ 100 := by
        intro t
        have hacc_nonneg :
            0 ≤ acc_count_sum C ground_truth (sortPredictions prediction) mode t := by
          apply List.sum_nonneg
          intro x hx
          rw [List.mem_map] at hx
          obtain ⟨p, _, rfl⟩ := hx
          positivity
        have hacc_le :
            acc_count_sum C ground_truth (sortPredictions prediction) mode t ≤
            total_count_sum C ground_truth (sortPredictions prediction) mode t := by
          unfold acc_count_sum total_count_sum
          apply List.sum_le_sum
          intro p hpw
          have hpp : p ∈ prediction := by
            obtain ⟨g, hg, hwin⟩ := List.mem_filterMap.1 hpw
            have hgrp := winner_mem hwin
            exact mem_sortPredictions.1 (List.mem_filter.1 hgrp).1
          exact acc_le_total_of_contract C ground_truth prediction t p hpp h2
        unfold robustnessAt
        by_cases hT : 0 < total_count_sum C ground_truth
            (sortPredictions prediction) mode t
        · rw [if_pos hT]
          constructor
          · apply div_nonneg _ (le_of_lt hT)
            exact mul_nonneg (by norm_num) hacc_nonneg
          · rw [div_le_iff₀ hT]
            calc 100 * acc_count_sum C ground_truth (sortPredictions prediction) mode t
                ≤ 100 * total_count_sum C ground_truth (sortPredictions prediction) mode t :=
                  mul_le_mul_of_nonneg_left hacc_le (by norm_num)
              _ = 100 * total_count_sum C ground_truth (sortPredictions prediction) mode t := rfl
        · rw [if_neg hT]
          norm_num
      constructor
      · intro r hr
        rw [List.mem_map] at hr
        obtain ⟨t, _, rfl⟩ := hr
        exact key t
      · intro i hi h0
        rw [getD_map_of_lt _ _ hi]
        unfold robustnessAt
        rw [if_neg (by rw [h0]; exact lt_irrefl 0)]
    · rw [if_neg hall] at hok
      exact absurd hok (by simp)

/-- C7 witness: on the spec scenario the single returned robustness value 50
lies between 0 and 100. -/
theorem claim7_robustness_bounds_instance :
    (0 : ℚ) ≤ 50 ∧ (50 : ℚ) ≤ 100 :=
  (claim7_robustness_bounds Cex gts0 predsC1 [1/2] .take_max_score [50]
    (by
      intro tr g v hv
      simp only [Cex] at hv
      split_ifs at hv
      · rcases List.mem_replicate.1 hv with ⟨_, rfl⟩
        norm_num
      · rcases List.mem_replicate.1 hv with ⟨_, rfl⟩
        norm_num
      · simp at hv)
    (by
      intro q hq g hg
      have hfg : firstGt? gts0 q.videoId = some gtT ∨ q ∉ predsC1 := by
        rcases List.mem_cons.1 hq with rfl | hq2
        · exact Or.inl rfl
        · rw [List.mem_singleton] at hq2
          subst hq2
          exact Or.inl rfl
      rcases hfg with hfg | hfg
      · rw [hfg] at hg
        injection hg with hg
        subst hg
        rcases List.mem_cons.1 hq with rfl | hq2
        · decide
        · rw [List.mem_singleton] at hq2
          subst hq2
          decide
      · exact absurd hq hfg)
    (by decide) (by decide)).1 50 (by decide)

/-- C8: when for every ground-truth video the prediction selected by highest
score coincides with the prediction selected by highest whole-track IoU (at
every threshold), the two modes return identical robustness vectors. -/
theorem claim8_mode_invariance (C : Collaborators) (ground_truth : List GtRow)
    (prediction : List PredRow) (iou_thresholds : List ℚ)
    (hw : ∀ g ∈ ground_truth, ∀ t : ℚ,
      winner C ground_truth .take_max_stiou t
          (videoGroup (sortPredictions prediction) g.videoId) =
        winner C ground_truth .take_max_score t
          (videoGroup (sortPredictions prediction) g.videoId)) :
    compute_tracking_metrics C ground_truth prediction iou_thresholds
        .take_max_stiou =
      compute_tracking_metrics C ground_truth prediction iou_thresholds
        .take_max_score := by
  unfold compute_tracking_metrics
  by_cases hp : prediction.isEmpty = true
  · rw [if_pos hp, if_pos hp]
  · rw [if_neg hp, if_neg hp]
    by_cases hall : (ground_truth.all (fun g => decide
        (videoGroup (sortPredictions prediction) g.videoId ≠ []))) = true
    · rw [if_pos hall, if_pos hall]
      congr 1
      apply List.map_congr_left
      intro t _
      have hwr : winner_rows C ground_truth (sortPredictions prediction)
          .take_max_stiou t =
          winner_rows C ground_truth (sortPredictions prediction)
          .take_max_score t := by
        unfold winner_rows
        exact List.filterMap_congr (fun g hg => hw g hg t)
      unfold robustnessAt acc_count_sum total_count_sum
      rw [hwr]
    · rw [if_neg hall, if_neg hall]

/-- C8 witness: with a single prediction per video both modes select that
prediction, and the two vectors agree on the concrete scenario. -/
theorem claim8_mode_invariance_instance :
    compute_tracking_metrics Cex gts0 [p1row] [1/2] .take_max_stiou =
      compute_tracking_metrics Cex gts0 [p1row] [1/2] .take_max_score :=
  claim8_mode_invariance Cex gts0 [p1row] [1/2]
    (by
      intro g hg t
      simp only [gts0, List.mem_singleton] at hg
      subst hg
      rfl)

/-- Helper: a successful aggregator call returns one entry per threshold. -/
theorem compute_ok_length {C : Collaborators} {ground_truth : List GtRow}
    {prediction : List PredRow} {iou_thresholds : List ℚ} {mode : Mode}
    {rs : List ℚ}
    (h : compute_tracking_metrics C ground_truth prediction iou_thresholds
      mode = Except.ok rs) : rs.length = iou_thresholds.length := by
  unfold compute_tracking_metrics at h
  by_cases hp : prediction.isEmpty = true
  · rw [if_pos hp] at h
    injection h with h
    subst h
    exact List.length_map _ _
  · rw [if_neg hp] at h
    by_cases hall : (ground_truth.all (fun g => decide
        (videoGroup (sortPredictions prediction) g.videoId ≠ []))) = true
    · rw [if_pos hall] at h
      injection h with h
      subst h
      exact List.length_map _ _
    · rw [if_neg hall] at h
      exact absurd h (by simp)

/-- C9 counterexample: on a concrete evaluation the facade stores a single
robustness vector, over the fixed 3-point grid, not a pair of vectors over
the 10-value calibration grid and the 3-point grid: the stored vector has 3
entries while the claimed full calibration grid has 10. -/
theorem claim9_counterexample :
    TrackingMetrics.evaluate Cex [gtT] [[p1T]] .take_max_score =
      Except.ok ([50, 0, 0], 50/3) ∧
    TrackingMetrics.default_iou_thresholds.length = 10 ∧
    ([(50 : ℚ), 0, 0].length ≠ TrackingMetrics.default_iou_thresholds.length) := by
  decide

/-- C9 (amended): `evaluate` invokes the aggregator exactly once, over the
class grid `[0.5, 0.75, 0.95]`; on success it stores that single 3-entry
robustness vector together with its mean (sum divided by 3).  The 10-value
linspace grid is only the unused default argument of the aggregator. -/
theorem claim9_single_grid_evaluate (C : Collaborators)
    (ground_truth : List ResponseTrack)
    (prediction : List (List ResponseTrack)) (mode : Mode) (rs : List ℚ)
    (avg : ℚ)
    (h : TrackingMetrics.evaluate C ground_truth prediction mode =
      Except.ok (rs, avg)) :
    compute_tracking_metrics C
        (TrackingMetrics.import_ground_truth ground_truth)
        (TrackingMetrics.import_prediction prediction)
        TrackingMetrics.iou_thresholds mode = Except.ok rs ∧
    rs.length = 3 ∧ avg = rs.sum / 3 := by
  unfold TrackingMetrics.evaluate at h
  cases hc : compute_tracking_metrics C
      (TrackingMetrics.import_ground_truth ground_truth)
      (TrackingMetrics.import_prediction prediction)
      TrackingMetrics.iou_thresholds mode with
  | error e =>
    rw [hc] at h
    exact absurd h (by simp [Except.map])
  | ok rs2 =>
    rw [hc] at h
    simp only [Except.map, Except.ok.injEq, Prod.mk.injEq] at h
    obtain ⟨hrs, havg⟩ := h
    have hlen : rs2.length = 3 := compute_ok_length hc
    subst hrs
    refine ⟨rfl, hlen, ?_⟩
    rw [← havg, hlen]
    norm_num

/-- C9 witness: the concrete evaluation stores the 3-entry vector
`[50, 0, 0]` and its mean `50/3`. -/
theorem claim9_single_grid_evaluate_instance :
    compute_tracking_metrics Cex
        (TrackingMetrics.import_ground_truth [gtT])
        (TrackingMetrics.import_prediction [[p1T]])
        TrackingMetrics.iou_thresholds .take_max_score =
      Except.ok [50, 0, 0] ∧
    ([(50 : ℚ), 0, 0].length = 3) ∧
    ((50 : ℚ)/3 = [(50 : ℚ), 0, 0].sum / 3) :=
  claim9_single_grid_evaluate Cex [gtT] [[p1T]] .take_max_score [50, 0, 0]
    (50/3) (by decide)
